import Mathlib

/-!
Shallow embedding of `crates/diff-tree/src/lib.rs` (dulwich's Rust
`_diff_tree` extension module): the content fingerprinter
(`_count_blocks` / `add_hash`), the tree-entry merger (`tree_entries`,
`entry_path_cmp`, `_merge_entries`) and the mode classifier (`_is_tree`),
together with proofs of the specification's claims about them.

Bytes are modelled as `Nat`, byte strings as `List Nat`.  The Python
`hash()` of a bytes object is an external function, modelled as a
parameter `h : List Nat → Int`; the module-level tunable `_BLOCK_SIZE`
is a parameter `bs : Nat`.  Fallible Python calls are modelled with
`Except String`.
-/

namespace DiffTree

def S_IFMT : Nat := 0o170000

def S_IFDIR : Nat := 0o040000

/-! ## Content fingerprinter -/

/-- The counts mapping built by `_count_blocks`: a Python
`defaultdict(int)` keyed by the hash of a block, modelled as an
insertion-ordered association list (existing keys are updated in place,
new keys are appended at the end, exactly as a Python dict behaves). -/
abbrev Counts := List (Int × Nat)

/-- `defaultdict` read (missing key yields `int()`, i.e. `0`) followed by
`__setitem__` of the old value plus `n`, as performed by `add_hash`. -/
def bump : Counts → Int → Nat → Counts
  | [], k, n => [(k, n)]
  | (k', v) :: rest, k, n =>
      if k' = k then (k', v + n) :: rest else (k', v) :: bump rest k n

/-- `add_hash(get, set, string)`: `set(hash(string), get(hash(string)) + len(string))`. -/
def add_hash (h : List Nat → Int) (counts : Counts) (s : List Nat) : Counts :=
  bump counts (h s) s.length

/-- One iteration of the inner byte loop of `_count_blocks`: push the byte
onto the block buffer; if the byte is `\n` (10) or the buffer has reached
`bs`, hash and count the block and clear the buffer. -/
def pushByte (h : List Nat → Int) (bs : Nat) (st : Counts × List Nat) (c : Nat) :
    Counts × List Nat :=
  let block := st.2 ++ [c]
  if c = 10 ∨ block.length = bs then (add_hash h st.1 block, []) else (st.1, block)

/-- A chunk as delivered by Python: either a `bytes` object or something
else (which `_count_blocks` rejects with a `TypeError`). -/
inductive PyChunk where
  | bytes (data : List Nat) : PyChunk
  | other : PyChunk
deriving DecidableEq, Repr

/-- The value returned by the blob's `as_raw_chunks()` accessor: either a
Python list of chunks, or a non-list (rejected with a `TypeError`). -/
inductive ChunksRet where
  | pylist (chunks : List PyChunk) : ChunksRet
  | other : ChunksRet
deriving DecidableEq, Repr

/-- The chunk loop of `_count_blocks`: each chunk is type-checked as it is
reached; a non-bytes chunk aborts with a `TypeError` before any further
processing. -/
def runChunks (h : List Nat → Int) (bs : Nat) :
    List PyChunk → Counts × List Nat → Except String (Counts × List Nat)
  | [], st => .ok st
  | PyChunk.other :: _, _ => .error "chunk is not a string"
  | PyChunk.bytes d :: rest, st => runChunks h bs rest (d.foldl (pushByte h bs) st)

/-- The epilogue of `_count_blocks`: a non-empty trailing block is hashed
and counted like any other block. -/
def finishBlock (h : List Nat → Int) (st : Counts × List Nat) : Counts :=
  if st.2 = [] then st.1 else add_hash h st.1 st.2

/-- `_count_blocks(obj)` with the call `obj.as_raw_chunks()` already
performed (its result is the argument): reject a non-list, then stream
every chunk byte by byte and finish the trailing block. -/
def _count_blocks (h : List Nat → Int) (bs : Nat) (obj : ChunksRet) :
    Except String Counts :=
  match obj with
  | ChunksRet.other => .error "as_raw_chunks() did not return a list"
  | ChunksRet.pylist chunks =>
      (runChunks h bs chunks ([], [])).map (finishBlock h)

/-- Sum of the values of a counts mapping. -/
def sumVals (c : Counts) : Nat := (c.map Prod.snd).sum

/-! ## Basic fingerprinter lemmas -/

theorem sumVals_bump (c : Counts) (k : Int) (n : Nat) :
    sumVals (bump c k n) = sumVals c + n := by
  induction c with
  | nil => simp [bump, sumVals]
  | cons p rest ih =>
      obtain ⟨k', v⟩ := p
      by_cases hk : k' = k <;> simp [bump, hk, sumVals] at ih ⊢ <;> omega

theorem sumVals_add_hash (h : List Nat → Int) (c : Counts) (s : List Nat) :
    sumVals (add_hash h c s) = sumVals c + s.length := by
  simp [add_hash, sumVals_bump]

/-- Processing a list of well-typed `bytes` chunks succeeds and equals the
byte-by-byte fold over the concatenation of the chunks. -/
theorem runChunks_bytes (h : List Nat → Int) (bs : Nat) (chunks : List (List Nat))
    (st : Counts × List Nat) :
    runChunks h bs (chunks.map PyChunk.bytes) st =
      .ok (chunks.flatten.foldl (pushByte h bs) st) := by
  induction chunks generalizing st with
  | nil => simp [runChunks]
  | cons d rest ih => simp [runChunks, List.foldl_append, ih]

/-- `_count_blocks` on a well-typed chunk list computes the fold over the
concatenated bytes followed by the trailing-block epilogue. -/
theorem count_blocks_bytes (h : List Nat → Int) (bs : Nat) (chunks : List (List Nat)) :
    _count_blocks h bs (ChunksRet.pylist (chunks.map PyChunk.bytes)) =
      .ok (finishBlock h (chunks.flatten.foldl (pushByte h bs) ([], []))) := by
  simp [_count_blocks, runChunks_bytes, Except.map]

/-- Conservation invariant of the byte loop: counted bytes plus buffered
bytes grow by exactly the number of bytes consumed. -/
theorem foldl_pushByte_sum (h : List Nat → Int) (bs : Nat) (bytes : List Nat)
    (st : Counts × List Nat) :
    sumVals (bytes.foldl (pushByte h bs) st).1 +
        (bytes.foldl (pushByte h bs) st).2.length =
      sumVals st.1 + st.2.length + bytes.length := by
  induction bytes generalizing st with
  | nil => simp
  | cons c rest ih =>
      rw [List.foldl_cons, ih]
      show sumVals (pushByte h bs st c).1 + (pushByte h bs st c).2.length + rest.length = _
      unfold pushByte
      dsimp only
      split
      · simp [sumVals_add_hash]; omega
      · simp; omega

theorem sumVals_finishBlock (h : List Nat → Int) (st : Counts × List Nat) :
    sumVals (finishBlock h st) = sumVals st.1 + st.2.length := by
  unfold finishBlock
  by_cases he : st.2 = [] <;> simp [he, sumVals_add_hash]

/-! ## The blocks produced by the byte loop

`pushByteB` is `pushByte` with the counts mapping replaced by the list of
blocks hashed so far, and `blocksOf` mirrors `_count_blocks`' main loop
and epilogue; `foldl_pushByte_blocks` below proves the simulation. -/

def pushByteB (bs : Nat) (st : List (List Nat) × List Nat) (c : Nat) :
    List (List Nat) × List Nat :=
  let block := st.2 ++ [c]
  if c = 10 ∨ block.length = bs then (st.1 ++ [block], []) else (st.1, block)

/-- The sequence of blocks that `_count_blocks` hashes and counts for a
given concatenated byte stream. -/
def blocksOf (bs : Nat) (bytes : List Nat) : List (List Nat) :=
  let st := bytes.foldl (pushByteB bs) ([], [])
  if st.2 = [] then st.1 else st.1 ++ [st.2]

theorem foldl_pushByte_blocks (h : List Nat → Int) (bs : Nat) (bytes : List Nat)
    (blocks : List (List Nat)) (buf : List Nat) (c0 : Counts) :
    bytes.foldl (pushByte h bs) (blocks.foldl (add_hash h) c0, buf) =
      ((bytes.foldl (pushByteB bs) (blocks, buf)).1.foldl (add_hash h) c0,
       (bytes.foldl (pushByteB bs) (blocks, buf)).2) := by
  induction bytes generalizing blocks buf with
  | nil => simp
  | cons c rest ih =>
      rw [List.foldl_cons, List.foldl_cons]
      by_cases hcond : c = 10 ∨ (buf ++ [c]).length = bs
      · have h1 : pushByte h bs (blocks.foldl (add_hash h) c0, buf) c
            = ((blocks ++ [buf ++ [c]]).foldl (add_hash h) c0, []) := by
          simp only [pushByte]
          rw [if_pos hcond, List.foldl_append]
          rfl
        have h2 : pushByteB bs (blocks, buf) c = (blocks ++ [buf ++ [c]], []) := by
          simp only [pushByteB]
          rw [if_pos hcond]
        rw [h1, h2, ih]
      · have h1 : pushByte h bs (blocks.foldl (add_hash h) c0, buf) c
            = (blocks.foldl (add_hash h) c0, buf ++ [c]) := by
          simp only [pushByte]
          rw [if_neg hcond]
        have h2 : pushByteB bs (blocks, buf) c = (blocks, buf ++ [c]) := by
          simp only [pushByteB]
          rw [if_neg hcond]
        rw [h1, h2, ih]

/-- `_count_blocks` on a single chunk equals the fold of `add_hash` over
the blocks listed by `blocksOf`. -/
theorem count_blocks_eq_blocksOf (h : List Nat → Int) (bs : Nat) (bytes : List Nat) :
    _count_blocks h bs (ChunksRet.pylist [PyChunk.bytes bytes]) =
      .ok ((blocksOf bs bytes).foldl (add_hash h) []) := by
  have hb := foldl_pushByte_blocks h bs bytes [] [] []
  have := count_blocks_bytes h bs [bytes]
  simp only [List.map, List.flatten, List.append_nil] at this
  rw [this]
  simp only [List.foldl_nil] at hb
  rw [hb]
  unfold finishBlock blocksOf
  dsimp only
  split
  · rfl
  · rw [← List.foldl_concat (add_hash h) []]

/-- Invariant of the block-collecting loop: every completed block is
non-empty and, when `1 ≤ bs`, no longer than `bs`; the open buffer stays
strictly shorter than `bs`. -/
theorem foldl_pushByteB_inv (bs : Nat) (hbs : 1 ≤ bs) (bytes : List Nat)
    (blocks : List (List Nat)) (buf : List Nat)
    (hbuf : buf.length < bs)
    (hblocks : ∀ b ∈ blocks, b ≠ [] ∧ b.length ≤ bs) :
    (bytes.foldl (pushByteB bs) (blocks, buf)).2.length < bs ∧
      ∀ b ∈ (bytes.foldl (pushByteB bs) (blocks, buf)).1, b ≠ [] ∧ b.length ≤ bs := by
  induction bytes generalizing blocks buf with
  | nil => exact ⟨hbuf, hblocks⟩
  | cons c rest ih =>
      rw [List.foldl_cons]
      unfold pushByteB
      dsimp only
      split
      · refine ih (blocks ++ [buf ++ [c]]) [] hbs fun b hb => ?_
        rcases List.mem_append.mp hb with hb | hb
        · exact hblocks b hb
        · rcases List.mem_singleton.mp hb with rfl
          refine ⟨by simp, ?_⟩
          simp only [List.length_append, List.length_singleton]
          omega
      · refine ih blocks (buf ++ [c]) ?_ hblocks
        rename_i hcond
        simp only [List.length_append, List.length_singleton]
        rcases Nat.lt_or_ge (buf.length + 1) bs with hlt | hge
        · exact hlt
        · exfalso
          apply hcond
          right
          simp only [List.length_append, List.length_singleton]
          omega

/-- Unconditional invariant of the block-collecting loop: every
completed block contains at least the byte whose push declared the
boundary, whatever the block-size constant is (`bs = 0` included). -/
theorem foldl_pushByteB_nonempty (bs : Nat) (bytes : List Nat)
    (blocks : List (List Nat)) (buf : List Nat)
    (hblocks : ∀ b ∈ blocks, b ≠ []) :
    ∀ b ∈ (bytes.foldl (pushByteB bs) (blocks, buf)).1, b ≠ [] := by
  induction bytes generalizing blocks buf with
  | nil => exact hblocks
  | cons c rest ih =>
      rw [List.foldl_cons]
      unfold pushByteB
      dsimp only
      split
      · refine ih (blocks ++ [buf ++ [c]]) [] fun b hb => ?_
        rcases List.mem_append.mp hb with hb | hb
        · exact hblocks b hb
        · rcases List.mem_singleton.mp hb with rfl
          simp
      · exact ih blocks (buf ++ [c]) hblocks

/-- Every block in `blocksOf` is non-empty, for every block-size
constant: loop blocks by `foldl_pushByteB_nonempty`, and the trailing
block is only appended when the buffer is non-empty. -/
theorem blocksOf_nonempty (bs : Nat) (bytes : List Nat) :
    ∀ b ∈ blocksOf bs bytes, b ≠ [] := by
  intro b hb
  have hne := foldl_pushByteB_nonempty bs bytes [] [] (by simp)
  unfold blocksOf at hb
  dsimp only at hb
  by_cases he : (bytes.foldl (pushByteB bs) ([], [])).2 = []
  · rw [if_pos he] at hb
    exact hne b hb
  · rw [if_neg he] at hb
    rcases List.mem_append.mp hb with hb | hb
    · exact hne b hb
    · rcases List.mem_singleton.mp hb with rfl
      exact he

/-- Every block in `blocksOf` is non-empty and, when `1 ≤ bs`, at most
`bs` bytes long. -/
theorem blocksOf_bounds (bs : Nat) (hbs : 1 ≤ bs) (bytes : List Nat) :
    ∀ b ∈ blocksOf bs bytes, b ≠ [] ∧ b.length ≤ bs := by
  intro b hb
  have hinv := foldl_pushByteB_inv bs hbs bytes [] [] (by simpa using hbs) (by simp)
  unfold blocksOf at hb
  dsimp only at hb
  by_cases he : (bytes.foldl (pushByteB bs) ([], [])).2 = []
  · rw [if_pos he] at hb
    exact hinv.2 b hb
  · rw [if_neg he] at hb
    rcases List.mem_append.mp hb with hb | hb
    · exact hinv.2 b hb
    · rcases List.mem_singleton.mp hb with rfl
      exact ⟨he, Nat.le_of_lt hinv.1⟩

/-! ## Tree entry merger -/

/-- The `TreeEntry` objects constructed by `tree_entries`: the full
slash-joined path, the mode and an opaque object id. -/
structure TreeEntry where
  path : List Nat
  mode : Nat
  sha : Nat
deriving DecidableEq, Repr

/-- An item yielded by a tree's `iteritems(True)`: either it extracts as a
`(name: bytes, mode: u32, object_id)` triple, or the extraction fails
(a non-triple, a non-bytes name, a mode outside u32, ...). -/
inductive Item where
  | good (name : List Nat) (mode : Nat) (sha : Nat) : Item
  | bad : Item
deriving DecidableEq, Repr

/-- Path construction of `tree_entries`: the `/` separator (byte 47) is
prepended only when the prefix is non-empty. -/
def joinPath (pfx name : List Nat) : List Nat :=
  if pfx = [] then name else pfx ++ 47 :: name

/-- Extraction of one iterated item into a `TreeEntry`, failing with a
type error when the item does not decompose into `(name, mode, sha)`. -/
def extractItem (pfx : List Nat) : Item → Except String TreeEntry
  | Item.bad => .error "TypeError"
  | Item.good name mode sha => .ok ⟨joinPath pfx name, mode, sha⟩

/-- `tree_entries(path, tree)`: an absent tree yields the empty list;
otherwise every iterated item is extracted in order, the first failing
extraction aborting the whole call. -/
def tree_entries (pfx : List Nat) : Option (List Item) → Except String (List TreeEntry)
  | none => .ok []
  | some items => items.mapM (extractItem pfx)

/-- Byte-wise lexicographic comparison, as `&[u8]::cmp` in Rust. -/
def cmpBytes : List Nat → List Nat → Ordering
  | [], [] => Ordering.eq
  | [], _ :: _ => Ordering.lt
  | _ :: _, [] => Ordering.gt
  | a :: as, b :: bs =>
      if a < b then Ordering.lt
      else if b < a then Ordering.gt
      else cmpBytes as bs

/-- `entry_path_cmp`: compare two entries by their `path` attribute. -/
def entry_path_cmp (e1 e2 : TreeEntry) : Ordering :=
  cmpBytes e1.path e2.path

/-- One element of `_merge_entries`' result: a pair of optional entries
(`py.None()` on the absent side). -/
abbrev EntryPair := Option TreeEntry × Option TreeEntry

/-- The two-cursor merge loop of `_merge_entries`, including the two
drain loops that run after one side is exhausted. -/
def mergeLists : List TreeEntry → List TreeEntry → List EntryPair
  | [], es2 => es2.map fun e => (none, some e)
  | es1, [] => es1.map fun e => (some e, none)
  | e1 :: r1, e2 :: r2 =>
      match entry_path_cmp e1 e2 with
      | Ordering.eq => (some e1, some e2) :: mergeLists r1 r2
      | Ordering.lt => (some e1, none) :: mergeLists r1 (e2 :: r2)
      | Ordering.gt => (none, some e2) :: mergeLists (e1 :: r1) r2
termination_by es1 es2 => es1.length + es2.length

/-- `_merge_entries(path, tree1, tree2)`: list both sides (an error while
listing either side aborts), then merge. -/
def _merge_entries (pfx : List Nat) (tree1 tree2 : Option (List Item)) :
    Except String (List EntryPair) := do
  let entries1 ← tree_entries pfx tree1
  let entries2 ← tree_entries pfx tree2
  return mergeLists entries1 entries2

/-! ## Ordering lemmas for the merge -/

theorem cmpBytes_eq_iff (a b : List Nat) : cmpBytes a b = Ordering.eq ↔ a = b := by
  induction a generalizing b with
  | nil => cases b <;> simp [cmpBytes]
  | cons x as ih =>
      cases b with
      | nil => simp [cmpBytes]
      | cons y bs =>
          by_cases h1 : x < y
          · simp only [cmpBytes, if_pos h1]
            constructor
            · intro hc; exact absurd hc (by decide)
            · rintro h; rcases List.cons.injEq .. ▸ h with ⟨rfl, -⟩; omega
          · by_cases h2 : y < x
            · simp only [cmpBytes, if_neg h1, if_pos h2]
              constructor
              · intro hc; exact absurd hc (by decide)
              · rintro h; rcases List.cons.injEq .. ▸ h with ⟨rfl, -⟩; omega
            · have hxy : x = y := by omega
              subst hxy
              simp [cmpBytes, ih]

theorem cmpBytes_gt_iff (a b : List Nat) :
    cmpBytes a b = Ordering.gt ↔ cmpBytes b a = Ordering.lt := by
  induction a generalizing b with
  | nil => cases b <;> simp [cmpBytes]
  | cons x as ih =>
      cases b with
      | nil => simp [cmpBytes]
      | cons y bs =>
          by_cases h1 : x < y
          · simp only [cmpBytes, if_pos h1, if_neg (by omega : ¬ y < x)]
            constructor
            · intro hc; exact absurd hc (by decide)
            · intro hc; exact absurd hc.symm (by decide)
          · by_cases h2 : y < x
            · simp [cmpBytes, h1, h2]
            · have hxy : x = y := by omega
              subst hxy
              simp [cmpBytes, ih]

theorem cmpBytes_lt_trans {a b c : List Nat} (hab : cmpBytes a b = Ordering.lt)
    (hbc : cmpBytes b c = Ordering.lt) : cmpBytes a c = Ordering.lt := by
  induction a generalizing b c with
  | nil =>
      cases b with
      | nil => exact absurd hab (by simp [cmpBytes])
      | cons y bs =>
          cases c with
          | nil => exact absurd hbc (by simp [cmpBytes])
          | cons z cs => simp [cmpBytes]
  | cons x as ih =>
      cases b with
      | nil => exact absurd hab (by simp [cmpBytes])
      | cons y bs =>
          cases c with
          | nil => exact absurd hbc (by simp [cmpBytes])
          | cons z cs =>
              simp only [cmpBytes] at hab hbc ⊢
              by_cases hxy : x < y
              · by_cases hyz : y < z
                · rw [if_pos (by omega : x < z)]
                · rw [if_neg hyz] at hbc
                  by_cases hzy : z < y
                  · rw [if_pos hzy] at hbc; exact absurd hbc (by decide)
                  · rw [if_pos (by omega : x < z)]
              · rw [if_neg hxy] at hab
                by_cases hyx : y < x
                · rw [if_pos hyx] at hab; exact absurd hab (by decide)
                · rw [if_neg hyx] at hab
                  by_cases hyz : y < z
                  · rw [if_pos (by omega : x < z)]
                  · rw [if_neg hyz] at hbc
                    by_cases hzy : z < y
                    · rw [if_pos hzy] at hbc; exact absurd hbc (by decide)
                    · rw [if_neg hzy] at hbc
                      rw [if_neg (by omega : ¬ x < z), if_neg (by omega : ¬ z < x)]
                      exact ih hab hbc

/-- The path of whichever side of a pair is present (left side when both
are present; both-absent pairs never occur in the merger's output). -/
def pairKey : EntryPair → List Nat
  | (some e, _) => e.path
  | (none, some e) => e.path
  | (none, none) => []

/-- Strict path order on entries, as decided by `entry_path_cmp`. -/
def entLt (e1 e2 : TreeEntry) : Prop := entry_path_cmp e1 e2 = Ordering.lt

/-- Strict order on output pairs by present-side path. -/
def pairLt (p q : EntryPair) : Prop := cmpBytes (pairKey p) (pairKey q) = Ordering.lt

instance : DecidableRel entLt := fun e1 e2 => by unfold entLt; infer_instance

instance : DecidableRel pairLt := fun p q => by unfold pairLt; infer_instance

/-! ## Merge correctness lemmas -/

/-- The first output pair of a merge takes its key from the head of one
of the two input lists. -/
theorem mergeLists_head_key (l1 l2 : List TreeEntry) (p : EntryPair)
    (hp : (mergeLists l1 l2).head? = some p) :
    (∃ e, l1.head? = some e ∧ pairKey p = e.path) ∨
      (∃ e, l2.head? = some e ∧ pairKey p = e.path) := by
  cases l1 with
  | nil =>
      cases l2 with
      | nil => simp [mergeLists] at hp
      | cons e2 r2 =>
          right
          refine ⟨e2, rfl, ?_⟩
          simp [mergeLists] at hp
          rw [← hp]
          rfl
  | cons e1 r1 =>
      cases l2 with
      | nil =>
          left
          refine ⟨e1, rfl, ?_⟩
          simp [mergeLists] at hp
          rw [← hp]
          rfl
      | cons e2 r2 =>
          rcases hc : entry_path_cmp e1 e2 with hlt | heq | hgt <;>
            simp only [mergeLists, hc, List.head?_cons, Option.some.injEq] at hp
          · left; exact ⟨e1, rfl, by rw [← hp]; rfl⟩
          · left; exact ⟨e1, rfl, by rw [← hp]; rfl⟩
          · right; exact ⟨e2, rfl, by rw [← hp]; rfl⟩

theorem filterMap_fst_left (es : List TreeEntry) :
    (es.map fun e => ((some e : Option TreeEntry), (none : Option TreeEntry))).filterMap
        Prod.fst = es := by
  induction es with
  | nil => rfl
  | cons e r ih => simp [ih]

theorem filterMap_snd_left (es : List TreeEntry) :
    (es.map fun e => ((some e : Option TreeEntry), (none : Option TreeEntry))).filterMap
        Prod.snd = [] := by
  induction es with
  | nil => rfl
  | cons e r ih => simp [ih]

theorem filterMap_fst_right (es : List TreeEntry) :
    (es.map fun e => ((none : Option TreeEntry), (some e : Option TreeEntry))).filterMap
        Prod.fst = [] := by
  induction es with
  | nil => rfl
  | cons e r ih => simp [ih]

theorem filterMap_snd_right (es : List TreeEntry) :
    (es.map fun e => ((none : Option TreeEntry), (some e : Option TreeEntry))).filterMap
        Prod.snd = es := by
  induction es with
  | nil => rfl
  | cons e r ih => simp [ih]

/-- If both input lists are strictly increasing by path, the merge output
is strictly increasing by present-side path. -/
theorem mergeLists_chain' (l1 l2 : List TreeEntry)
    (s1 : List.Chain' entLt l1) (s2 : List.Chain' entLt l2) :
    List.Chain' pairLt (mergeLists l1 l2) := by
  induction l1, l2 using mergeLists.induct with
  | case1 es2 =>
      rw [mergeLists]
      exact (List.chain'_map _).mpr (s2.imp fun a b h => h)
  | case2 es1 hne =>
      rw [mergeLists]
      exact (List.chain'_map _).mpr (s1.imp fun a b h => h)
      exact hne
  | case3 e1 r1 e2 r2 hc ih =>
      rw [mergeLists, hc]
      refine List.chain'_cons'.mpr ⟨?_, ih s1.tail s2.tail⟩
      intro p hp
      have hpath : e1.path = e2.path :=
        (cmpBytes_eq_iff e1.path e2.path).mp hc
      rcases mergeLists_head_key r1 r2 p hp with ⟨e, he, hk⟩ | ⟨e, he, hk⟩
      · have := (List.chain'_cons'.mp s1).1 e he
        unfold pairLt
        rw [hk]
        exact this
      · have := (List.chain'_cons'.mp s2).1 e he
        unfold pairLt
        rw [hk]
        show cmpBytes e1.path e.path = Ordering.lt
        rw [hpath]
        exact this
  | case4 e1 r1 e2 r2 hc ih =>
      rw [mergeLists, hc]
      refine List.chain'_cons'.mpr ⟨?_, ih s1.tail s2⟩
      intro p hp
      rcases mergeLists_head_key r1 (e2 :: r2) p hp with ⟨e, he, hk⟩ | ⟨e, he, hk⟩
      · have := (List.chain'_cons'.mp s1).1 e he
        unfold pairLt
        rw [hk]
        exact this
      · simp only [List.head?_cons, Option.some.injEq] at he
        subst he
        unfold pairLt
        rw [hk]
        exact hc
  | case5 e1 r1 e2 r2 hc ih =>
      rw [mergeLists, hc]
      refine List.chain'_cons'.mpr ⟨?_, ih s1 s2.tail⟩
      intro p hp
      rcases mergeLists_head_key (e1 :: r1) r2 p hp with ⟨e, he, hk⟩ | ⟨e, he, hk⟩
      · simp only [List.head?_cons, Option.some.injEq] at he
        subst he
        unfold pairLt
        rw [hk]
        show cmpBytes e2.path e1.path = Ordering.lt
        exact (cmpBytes_gt_iff e1.path e2.path).mp hc
      · have := (List.chain'_cons'.mp s2).1 e he
        unfold pairLt
        rw [hk]
        exact this

/-- The left components of the merge output, in order, are exactly the
first input list: every left entry appears in exactly one output pair. -/
theorem mergeLists_filterMap_fst (l1 l2 : List TreeEntry) :
    (mergeLists l1 l2).filterMap Prod.fst = l1 := by
  induction l1, l2 using mergeLists.induct with
  | case1 es2 => rw [mergeLists]; exact filterMap_fst_right es2
  | case2 es1 hne =>
      rw [mergeLists]
      exact filterMap_fst_left es1
      exact hne
  | case3 e1 r1 e2 r2 hc ih => rw [mergeLists, hc]; simp [ih]
  | case4 e1 r1 e2 r2 hc ih => rw [mergeLists, hc]; simp [ih]
  | case5 e1 r1 e2 r2 hc ih => rw [mergeLists, hc]; simp [ih]

/-- The right components of the merge output, in order, are exactly the
second input list. -/
theorem mergeLists_filterMap_snd (l1 l2 : List TreeEntry) :
    (mergeLists l1 l2).filterMap Prod.snd = l2 := by
  induction l1, l2 using mergeLists.induct with
  | case1 es2 => rw [mergeLists]; exact filterMap_snd_right es2
  | case2 es1 hne =>
      rw [mergeLists]
      exact filterMap_snd_left es1
      exact hne
  | case3 e1 r1 e2 r2 hc ih => rw [mergeLists, hc]; simp [ih]
  | case4 e1 r1 e2 r2 hc ih => rw [mergeLists, hc]; simp [ih]
  | case5 e1 r1 e2 r2 hc ih => rw [mergeLists, hc]; simp [ih]

/-! ## Mode classifier -/

/-- A Python value sitting in an entry's `mode` attribute: `None`, an
integer, or some other object. -/
inductive PyVal where
  | pynone : PyVal
  | pyint (n : Int) : PyVal
  | pyother : PyVal
deriving DecidableEq, Repr

/-- An entry object as seen by `_is_tree`: `mode` is `none` when the
object has no `mode` attribute (so `getattr` raises). -/
structure PyEntry where
  mode : Option PyVal
deriving DecidableEq, Repr

/-- PyO3's `extract::<u32>()`: succeeds exactly on integers in `[0, 2^32)`. -/
def extractU32 : PyVal → Option Nat
  | PyVal.pyint n => if 0 ≤ n ∧ n < 4294967296 then some n.toNat else none
  | _ => none

/-- `_is_tree(entry)`: `None` entry → `false`; missing `mode` attribute →
the `getattr` error propagates; `mode is None` → `false`; otherwise the
u32 extraction either fails (error propagates) or the format bits are
tested against `S_IFDIR`. -/
def _is_tree (entry : Option PyEntry) : Except String Bool :=
  match entry with
  | none => .ok false
  | some e =>
      match e.mode with
      | none => .error "AttributeError"
      | some PyVal.pynone => .ok false
      | some v =>
          match extractU32 v with
          | none => .error "TypeError"
          | some lmode => .ok (decide (lmode &&& S_IFMT = S_IFDIR))

/-! ## Helper lemmas for the claims -/

theorem mergeLists_nil_left (es : List TreeEntry) :
    mergeLists [] es = es.map fun e => (none, some e) := by
  rw [mergeLists]

theorem mergeLists_nil_right (es : List TreeEntry) :
    mergeLists es [] = es.map fun e => (some e, none) := by
  cases es with
  | nil => rw [mergeLists]; rfl
  | cons e r =>
      rw [mergeLists]
      exact fun hcontra => List.noConfusion hcontra

/-- A list of items that all extract successfully, given as raw
`(name, mode, sha)` triples. -/
def goodsToItems (gs : List (List Nat × Nat × Nat)) : List Item :=
  gs.map fun g => Item.good g.1 g.2.1 g.2.2

/-- The `TreeEntry` built from one raw triple under a given path. -/
def goodEntry (pfx : List Nat) (g : List Nat × Nat × Nat) : TreeEntry :=
  ⟨joinPath pfx g.1, g.2.1, g.2.2⟩

theorem tree_entries_goods (pfx : List Nat) (gs : List (List Nat × Nat × Nat)) :
    tree_entries pfx (some (goodsToItems gs)) = .ok (gs.map (goodEntry pfx)) := by
  induction gs with
  | nil => rfl
  | cons g rest ih =>
      simp only [tree_entries, goodsToItems, List.map_cons, List.mapM_cons] at ih ⊢
      rw [ih]
      rfl

theorem tree_entries_bad (pfx : List Nat) (pre : List (List Nat × Nat × Nat))
    (post : List Item) :
    tree_entries pfx (some (goodsToItems pre ++ Item.bad :: post)) =
      .error "TypeError" := by
  induction pre with
  | nil => rfl
  | cons g rest ih =>
      simp only [tree_entries, goodsToItems, List.map_cons, List.cons_append,
        List.mapM_cons] at ih ⊢
      rw [ih]
      rfl

theorem runChunks_bad (h : List Nat → Int) (bs : Nat) (pre : List (List Nat))
    (post : List PyChunk) (st : Counts × List Nat) :
    runChunks h bs (pre.map PyChunk.bytes ++ PyChunk.other :: post) st =
      .error "chunk is not a string" := by
  induction pre generalizing st with
  | nil => rfl
  | cons d rest ih => simp only [List.map_cons, List.cons_append, runChunks]; exact ih _

/-! ## Concrete data used by witnesses -/

/-- A concrete stand-in for the Python bytes hash, used only to
instantiate the hash parameter in witnesses: base-256 value of the
bytes. -/
def hash0 : List Nat → Int :=
  fun l => ((l.foldl (fun a c => a * 256 + c) 0 : Nat) : Int)

/-- The bytes of `b"foo\n"`. -/
def fooNl : List Nat := [102, 111, 111, 10]

/-- The bytes of `b"barbaz"`. -/
def barbaz : List Nat := [98, 97, 114, 98, 97, 122]

/-- The bytes of `b"foo\nbarbaz"`. -/
def fooBarbaz : List Nat := [102, 111, 111, 10, 98, 97, 114, 98, 97, 122]

/-! ## The claims -/

/-- C2: for every input blob (any list of byte chunks), the sum of all
values in the mapping returned by `_count_blocks` equals the total byte
length of the blob's concatenated content. -/
theorem claim_count_blocks_conservation (h : List Nat → Int) (bs : Nat)
    (chunks : List (List Nat)) :
    ∃ counts,
      _count_blocks h bs (ChunksRet.pylist (chunks.map PyChunk.bytes)) = .ok counts ∧
        sumVals counts = (chunks.map List.length).sum := by
  refine ⟨_, count_blocks_bytes h bs chunks, ?_⟩
  rw [sumVals_finishBlock, foldl_pushByte_sum h bs chunks.flatten ([], [])]
  simp [sumVals, List.length_flatten]

/-- C3: `_count_blocks` returns the same mapping for every chunking of
the same concatenated byte sequence. -/
theorem claim_count_blocks_chunk_invariance (h : List Nat → Int) (bs : Nat)
    (chunks1 chunks2 : List (List Nat)) (hj : chunks1.flatten = chunks2.flatten) :
    _count_blocks h bs (ChunksRet.pylist (chunks1.map PyChunk.bytes)) =
      _count_blocks h bs (ChunksRet.pylist (chunks2.map PyChunk.bytes)) := by
  rw [count_blocks_bytes, count_blocks_bytes, hj]

theorem claim_count_blocks_chunk_invariance_witness :
    _count_blocks hash0 7 (ChunksRet.pylist ([[102, 111], [111, 10, 98]].map PyChunk.bytes)) =
      _count_blocks hash0 7 (ChunksRet.pylist ([[102, 111, 111, 10, 98]].map PyChunk.bytes)) :=
  claim_count_blocks_chunk_invariance hash0 7 [[102, 111], [111, 10, 98]]
    [[102, 111, 111, 10, 98]] rfl

/-- C10: every block hashed and counted by `_count_blocks` is non-empty
(for every block-size constant, `bs = 0` included), and when the
block-size constant is at least 1, every such block has length at most
the block-size constant. -/
theorem claim_count_blocks_block_bounds (h : List Nat → Int) (bs : Nat)
    (bytes : List Nat) :
    _count_blocks h bs (ChunksRet.pylist [PyChunk.bytes bytes]) =
        .ok ((blocksOf bs bytes).foldl (add_hash h) []) ∧
      (∀ b ∈ blocksOf bs bytes, b ≠ []) ∧
      (1 ≤ bs → ∀ b ∈ blocksOf bs bytes, b.length ≤ bs) :=
  ⟨count_blocks_eq_blocksOf h bs bytes, blocksOf_nonempty bs bytes,
    fun hbs b hb => (blocksOf_bounds bs hbs bytes b hb).2⟩

theorem claim_count_blocks_block_bounds_witness :
    _count_blocks hash0 4 (ChunksRet.pylist [PyChunk.bytes [97, 98, 99, 100, 101]]) =
        .ok ((blocksOf 4 [97, 98, 99, 100, 101]).foldl (add_hash hash0) []) ∧
      (∀ b ∈ blocksOf 4 [97, 98, 99, 100, 101], b ≠ []) ∧
      ∀ b ∈ blocksOf 4 [97, 98, 99, 100, 101], b.length ≤ 4 :=
  ⟨(claim_count_blocks_block_bounds hash0 4 [97, 98, 99, 100, 101]).1,
   (claim_count_blocks_block_bounds hash0 4 [97, 98, 99, 100, 101]).2.1,
   (claim_count_blocks_block_bounds hash0 4 [97, 98, 99, 100, 101]).2.2 (by decide)⟩

/-- C4 counterexample: an entry whose `mode` attribute is the integer
`-1` (not representable as u32) makes `_is_tree` fail with an error
instead of returning `false`. -/
theorem claim_is_tree_no_error_counterexample :
    _is_tree (some ⟨some (PyVal.pyint (-1))⟩) = .error "TypeError" ∧
      _is_tree (some ⟨some (PyVal.pyint (-1))⟩) ≠ .ok false := by
  constructor
  · rfl
  · intro hcontra
    exact Except.noConfusion hcontra

/-- C4 amended: `_is_tree` returns `false` for an absent entry or a
`None` mode, but a missing `mode` attribute or a mode that is not
representable as a 32-bit unsigned integer makes it fail with an error
rather than return `false`. -/
theorem claim_is_tree_error_behavior :
    _is_tree none = .ok false ∧
      _is_tree (some ⟨some PyVal.pynone⟩) = .ok false ∧
      _is_tree (some ⟨none⟩) = .error "AttributeError" ∧
      (∀ n : Int, n < 0 ∨ 4294967296 ≤ n →
        _is_tree (some ⟨some (PyVal.pyint n)⟩) = .error "TypeError") ∧
      _is_tree (some ⟨some PyVal.pyother⟩) = .error "TypeError" := by
  refine ⟨rfl, rfl, rfl, ?_, rfl⟩
  intro n hn
  simp only [_is_tree, extractU32]
  rw [if_neg (by omega)]

theorem claim_is_tree_error_behavior_witness :
    _is_tree (some ⟨some (PyVal.pyint 4294967296)⟩) = .error "TypeError" :=
  claim_is_tree_error_behavior.2.2.2.1 4294967296 (Or.inr (by omega))

/-- C8: for a present entry whose mode is a 32-bit unsigned integer,
`_is_tree` returns `true` exactly when `mode &&& 0o170000 = 0o040000`;
for an absent entry or a `None` mode it returns `false`. -/
theorem claim_is_tree_mode_bits (n : Int) (h0 : 0 ≤ n) (hlt : n < 4294967296) :
    (_is_tree (some ⟨some (PyVal.pyint n)⟩) = .ok true ↔
        n.toNat &&& S_IFMT = S_IFDIR) ∧
      _is_tree none = .ok false ∧
      _is_tree (some ⟨some PyVal.pynone⟩) = .ok false := by
  refine ⟨?_, rfl, rfl⟩
  simp only [_is_tree, extractU32]
  rw [if_pos ⟨h0, hlt⟩]
  simp

theorem claim_is_tree_mode_bits_witness :
    (_is_tree (some ⟨some (PyVal.pyint 16384)⟩) = .ok true ↔
        Int.toNat 16384 &&& S_IFMT = S_IFDIR) ∧
      _is_tree none = .ok false ∧
      _is_tree (some ⟨some PyVal.pynone⟩) = .ok false :=
  claim_is_tree_mode_bits 16384 (by omega) (by omega)

/-- C1: when both trees' listings extract successfully and each side's
entry list is strictly increasing by path, `_merge_entries` succeeds,
its output is strictly increasing by the present-side path, and the left
(resp. right) components of the output pairs are, in order, exactly the
first (resp. second) side's entries — so every entry of either tree
appears in exactly one output pair. -/
theorem claim_merge_sorted_complete (pfx : List Nat) (t1 t2 : Option (List Item))
    (e1 e2 : List TreeEntry)
    (h1 : tree_entries pfx t1 = .ok e1) (h2 : tree_entries pfx t2 = .ok e2)
    (s1 : List.Chain' entLt e1) (s2 : List.Chain' entLt e2) :
    ∃ res, _merge_entries pfx t1 t2 = .ok res ∧
      List.Chain' pairLt res ∧
      res.filterMap Prod.fst = e1 ∧ res.filterMap Prod.snd = e2 := by
  refine ⟨mergeLists e1 e2, ?_, mergeLists_chain' e1 e2 s1 s2,
    mergeLists_filterMap_fst e1 e2, mergeLists_filterMap_snd e1 e2⟩
  rw [_merge_entries, h1, h2]
  rfl

theorem claim_merge_sorted_complete_witness :
    ∃ res,
      _merge_entries [] (some [Item.good [97] 33188 1, Item.good [99] 33188 2])
          (some [Item.good [98] 33188 3]) = .ok res ∧
        List.Chain' pairLt res ∧
        res.filterMap Prod.fst =
          [⟨[97], 33188, 1⟩, ⟨[99], 33188, 2⟩] ∧
        res.filterMap Prod.snd = [⟨[98], 33188, 3⟩] :=
  claim_merge_sorted_complete [] _ _ [⟨[97], 33188, 1⟩, ⟨[99], 33188, 2⟩]
    [⟨[98], 33188, 3⟩] rfl rfl
    (by simp [List.chain'_cons, List.chain'_singleton, entLt, entry_path_cmp, cmpBytes])
    (by simp [List.chain'_singleton])

/-- C5: for content `b"foo\nbarbaz"` under any chunking, with the block
size larger than either segment and no collision between the two block
hashes, `_count_blocks` yields exactly two entries: `b"foo\n"` (the
newline included in its block) with value 4 and the trailing partial
block `b"barbaz"` with value 6 — the trailing block is not dropped. -/
theorem claim_count_blocks_scenario (h : List Nat → Int) (bs : Nat)
    (chunks : List (List Nat)) (hj : chunks.flatten = fooBarbaz)
    (hbs : 6 < bs) (hcol : h fooNl ≠ h barbaz) :
    _count_blocks h bs (ChunksRet.pylist (chunks.map PyChunk.bytes)) =
      .ok [(h fooNl, 4), (h barbaz, 6)] := by
  rw [count_blocks_bytes, hj]
  simp only [fooNl, barbaz] at hcol
  have h1 : ¬ (1 : Nat) = bs := by omega
  have h2 : ¬ (2 : Nat) = bs := by omega
  have h3 : ¬ (3 : Nat) = bs := by omega
  have h4 : ¬ (4 : Nat) = bs := by omega
  have h5 : ¬ (5 : Nat) = bs := by omega
  have h6 : ¬ (6 : Nat) = bs := by omega
  have hmain : List.foldl (pushByte h bs) (([], []) : Counts × List Nat) fooBarbaz =
      ([(h [102, 111, 111, 10], 4)], [98, 97, 114, 98, 97, 122]) := by
    simp [fooBarbaz, pushByte, add_hash, bump, h1, h2, h3, h4, h5, h6]
  rw [hmain]
  simp [finishBlock, add_hash, bump, fooNl, barbaz, hcol]

theorem claim_count_blocks_scenario_witness :
    _count_blocks hash0 64 (ChunksRet.pylist ([fooBarbaz].map PyChunk.bytes)) =
      .ok [(hash0 fooNl, 4), (hash0 barbaz, 6)] :=
  claim_count_blocks_scenario hash0 64 [fooBarbaz] (by simp) (by omega) (by decide)

/-- C6: with both trees absent `_merge_entries` returns the empty list;
with exactly one tree absent it returns every entry of the other tree
paired with absence, in original order, each path being the prefix and
the name joined with a slash, with no separator when the prefix is
empty. -/
theorem claim_merge_one_absent (pfx : List Nat)
    (gs : List (List Nat × Nat × Nat)) (n p : List Nat) (c : Nat) :
    _merge_entries pfx none none = .ok [] ∧
      _merge_entries pfx (some (goodsToItems gs)) none =
        .ok ((gs.map (goodEntry pfx)).map fun e => (some e, none)) ∧
      _merge_entries pfx none (some (goodsToItems gs)) =
        .ok ((gs.map (goodEntry pfx)).map fun e => (none, some e)) ∧
      joinPath [] n = n ∧
      joinPath (c :: p) n = (c :: p) ++ 47 :: n := by
  refine ⟨?_, ?_, ?_, rfl, ?_⟩
  · show Except.ok (mergeLists [] []) = _
    rw [mergeLists_nil_left]
    rfl
  · rw [_merge_entries, tree_entries_goods]
    show Except.ok (mergeLists (gs.map (goodEntry pfx)) []) = _
    rw [mergeLists_nil_right]
  · rw [_merge_entries, tree_entries_goods]
    show Except.ok (mergeLists [] (gs.map (goodEntry pfx))) = _
    rw [mergeLists_nil_left]
  · rw [joinPath, if_neg (by simp)]

/-- C7: for tree A with entries `a` (file) and `c` (file) and tree B
with entries `b` (file) and `c` (directory), `_merge_entries` at the
empty prefix emits left-only for `a`, right-only for `b`, and a both-
sides pair for `c`, in exactly that order. -/
theorem claim_merge_scenario :
    _merge_entries []
        (some [Item.good [97] 33188 1, Item.good [99] 33188 2])
        (some [Item.good [98] 33188 3, Item.good [99] 16384 4]) =
      .ok [(some ⟨[97], 33188, 1⟩, none),
           (none, some ⟨[98], 33188, 3⟩),
           (some ⟨[99], 33188, 2⟩, some ⟨[99], 16384, 4⟩)] := by
  have ht1 : tree_entries [] (some [Item.good [97] 33188 1, Item.good [99] 33188 2]) =
      .ok [⟨[97], 33188, 1⟩, ⟨[99], 33188, 2⟩] := rfl
  have ht2 : tree_entries [] (some [Item.good [98] 33188 3, Item.good [99] 16384 4]) =
      .ok [⟨[98], 33188, 3⟩, ⟨[99], 16384, 4⟩] := rfl
  rw [_merge_entries, ht1, ht2]
  show Except.ok (mergeLists [⟨[97], 33188, 1⟩, ⟨[99], 33188, 2⟩]
    [⟨[98], 33188, 3⟩, ⟨[99], 16384, 4⟩]) = _
  have c1 : entry_path_cmp ⟨[97], 33188, 1⟩ ⟨[98], 33188, 3⟩ = Ordering.lt := rfl
  have c2 : entry_path_cmp ⟨[99], 33188, 2⟩ ⟨[98], 33188, 3⟩ = Ordering.gt := rfl
  have c3 : entry_path_cmp ⟨[99], 33188, 2⟩ ⟨[99], 16384, 4⟩ = Ordering.eq := rfl
  simp only [mergeLists, c1, c2, c3, List.map_nil]

/-- C9: `_count_blocks` fails with a type error when the chunk accessor
does not return a list or when any chunk is not a byte string, and
`_merge_entries` fails with a type error when either tree's iteration
yields an item that does not decompose into `(name, mode, object_id)`;
the error is surfaced to the caller and no partial result is returned. -/
theorem claim_type_errors :
    (∀ (h : List Nat → Int) (bs : Nat),
        _count_blocks h bs ChunksRet.other =
          .error "as_raw_chunks() did not return a list") ∧
      (∀ (h : List Nat → Int) (bs : Nat) (pre : List (List Nat)) (post : List PyChunk),
        _count_blocks h bs
            (ChunksRet.pylist (pre.map PyChunk.bytes ++ PyChunk.other :: post)) =
          .error "chunk is not a string") ∧
      (∀ (pfx : List Nat) (pre : List (List Nat × Nat × Nat)) (post : List Item)
          (t2 : Option (List Item)),
        _merge_entries pfx (some (goodsToItems pre ++ Item.bad :: post)) t2 =
          .error "TypeError") ∧
      (∀ (pfx : List Nat) (gs pre : List (List Nat × Nat × Nat)) (post : List Item),
        _merge_entries pfx (some (goodsToItems gs))
            (some (goodsToItems pre ++ Item.bad :: post)) =
          .error "TypeError") := by
  refine ⟨fun h bs => rfl, fun h bs pre post => ?_, fun pfx pre post t2 => ?_,
    fun pfx gs pre post => ?_⟩
  · rw [_count_blocks, runChunks_bad]
    rfl
  · rw [_merge_entries, tree_entries_bad]
    rfl
  · rw [_merge_entries, tree_entries_goods, tree_entries_bad]
    rfl

end DiffTree
